import Mathlib

/-!
Verification of the timetracker summarizer (`timetrack_summary.py`).

Shallow embedding conventions:
* Instants and durations are modelled as exact rationals (`ℚ`): Python
  `datetime` values have microsecond precision and `total_seconds` yields
  their exact difference on this data, so `ℚ` is a faithful exact model.
  `astimezone` does not change the instant a datetime denotes, and all
  comparisons in the code compare instants, so timestamps are modelled as
  absolute instants.
* The external ISO-8601 timestamp parser (`datetime.fromisoformat` plus the
  `Z` replacement and the timezone conversion) is an external-library
  dependency; `parse_log_line` is parameterised by it as a total function
  `String → Option ℚ`, `none` standing for the `ValueError` caught by the
  `try/except` block.
* Python dicts keyed by `(category, project)` that are only ever read back
  at a key are modelled as functions `Key → _` (a missing key behaves as the
  empty queue, exactly as the `key not in pending_starts` check arranges);
  `defaultdict(float)` accumulators whose insertion order matters for output
  are modelled as insertion-ordered association lists built by `bump`.
* Python `//` and `%` on integers (floor division, nonnegative remainder for
  a positive modulus) coincide with Lean's `/` and `%` on `Int` (Euclidean);
  Python `int()` applied to a possibly fractional number truncates toward
  zero, which is `Int.tdiv` on numerator and denominator (`pyInt`).
-/

namespace Timetrack

/-- A (category, project) pair, the key used for pairing and aggregation. -/
abbrev Key := String × String

/-- One parsed log entry, the dict returned by `parse_log_line`. -/
structure Event where
  timestamp : ℚ
  action : String
  category : String
  project : String
  tags : List String
deriving DecidableEq

/-- A reconstructed session, the dict appended to `sessions` in `summarize`. -/
structure Session where
  category : String
  project : String
  start : ℚ
  endTime : ℚ
  duration : ℚ
  tags : List String
deriving DecidableEq

/-- Helper for `tokenize`: walk the characters with an accumulator of the
current (reversed) token, closing a token at every whitespace run. -/
def tokenizeChars : List Char → List Char → List String
  | [], acc => if acc.isEmpty then [] else [String.mk acc.reverse]
  | c :: cs, acc =>
      if c.isWhitespace then
        (if acc.isEmpty then tokenizeChars cs []
         else String.mk acc.reverse :: tokenizeChars cs [])
      else tokenizeChars cs (c :: acc)

/-- `line.strip().split()`: split on whitespace runs, no empty tokens
(leading and trailing whitespace contributes no token, so the `strip` is
subsumed). -/
def tokenize (line : String) : List String :=
  tokenizeChars line.toList []

/-- Embedding of `parse_log_line`, parameterised by the external timestamp
parser `fromiso` (modelling `datetime.fromisoformat` on the `Z`-rewritten
token followed by `astimezone`, with `none` for the caught `ValueError`). -/
def parse_log_line (fromiso : String → Option ℚ) (line : String) : Option Event :=
  let parts := tokenize line
  if parts.length < 4 then none
  else
    match fromiso (parts.getD 0 "") with
    | none => none
    | some t => some ⟨t, parts.getD 1 "", parts.getD 2 "", parts.getD 3 "", parts.drop 4⟩

/-- `f"{minutes:02d}"`: zero-pad to width 2 (a nonnegative single digit gets
a leading `0`; anything already of width ≥ 2 is printed as is). -/
def pad2 (n : ℤ) : String :=
  if 0 ≤ n ∧ n < 10 then "0" ++ toString n else toString n

/-- Embedding of `format_duration`: `hours = seconds // 3600`,
`minutes = (seconds % 3600) // 60`, rendered `f"{hours}:{minutes:02d}"`. -/
def format_duration (seconds : ℤ) : String :=
  toString (seconds / 3600) ++ ":" ++ pad2 (seconds % 3600 / 60)

/-- Python `int()` on an exact rational: truncation toward zero. -/
def pyInt (q : ℚ) : ℤ :=
  Int.tdiv q.num q.den

/-- `format_duration(int(duration))` as used at lines 170, 185, 207, 209. -/
def renderDuration (d : ℚ) : String :=
  format_duration (pyInt d)

/-- The key of an event, `(entry['category'], entry['project'])`. -/
def keyOf (ev : Event) : Key := (ev.category, ev.project)

/-- The key of a session, `(session['category'], session['project'])`. -/
def sessionKey (ss : Session) : Key := (ss.category, ss.project)

/-- State of the reconstruction loop: the `sessions` list and the
`pending_starts` dict (a missing key is the empty queue). -/
structure RState where
  sessions : List Session
  pending : Key → List (ℚ × List String)

/-- The state before the loop: `sessions = []`, `pending_starts = {}`. -/
def initState : RState := ⟨[], fun _ => []⟩

/-- The session dict built when a stop pops the pending entry `p`. -/
def mkSession (ev : Event) (p : ℚ × List String) : Session :=
  ⟨ev.category, ev.project, p.1, ev.timestamp, ev.timestamp - p.1, p.2⟩

/-- One iteration of the `for entry in entries` loop of `summarize`
(lines 125–150): skip out-of-window entries, push starts, pop stops. -/
def stepEntry (startTime endTime : ℚ) (st : RState) (ev : Event) : RState :=
  if ev.timestamp < startTime ∨ endTime ≤ ev.timestamp then st
  else if ev.action = "start" then
    ⟨st.sessions,
     fun k => if k = keyOf ev then st.pending k ++ [(ev.timestamp, ev.tags)] else st.pending k⟩
  else if ev.action = "stop" then
    match st.pending (keyOf ev) with
    | [] => st
    | p :: rest =>
        ⟨st.sessions ++ [mkSession ev p],
         fun k => if k = keyOf ev then rest else st.pending k⟩
  else st

/-- The whole reconstruction loop over the parsed entries. -/
def reconstruct (startTime endTime : ℚ) (es : List Event) : RState :=
  es.foldl (stepEntry startTime endTime) initState

/-- Only the emitted sessions survive the loop; the remaining pending
starts are discarded (the rest of `summarize` reads only `sessions`). -/
def reconstructSessions (startTime endTime : ℚ) (es : List Event) : List Session :=
  (reconstruct startTime endTime es).sessions

/-- The window-membership test of line 130, as a Bool: the entry is kept
iff not (`entry_time < start_time or entry_time >= end_time`). -/
def inWindowB (startTime endTime : ℚ) (ev : Event) : Bool :=
  decide (¬ (ev.timestamp < startTime ∨ endTime ≤ ev.timestamp))

/-- The in-window start events of a given key, in file order. -/
def startsFor (startTime endTime : ℚ) (k : Key) (es : List Event) : List Event :=
  es.filter (fun ev => inWindowB startTime endTime ev ∧ ev.action = "start" ∧ keyOf ev = k)

/-- The in-window stop events of a given key, in file order. -/
def stopsFor (startTime endTime : ℚ) (k : Key) (es : List Event) : List Event :=
  es.filter (fun ev => inWindowB startTime endTime ev ∧ ev.action = "stop" ∧ keyOf ev = k)

/-- The emitted sessions of a given key, in emission (stop) order. -/
def sessionsFor (startTime endTime : ℚ) (k : Key) (es : List Event) : List Session :=
  (reconstructSessions startTime endTime es).filter (fun ss => sessionKey ss = k)

/-- `acc[k] += d` on a `defaultdict` modelled as an insertion-ordered
association list: add to the existing entry, else append a new one. -/
def bump {α : Type} [DecidableEq α] (acc : List (α × ℚ)) (k : α) (d : ℚ) : List (α × ℚ) :=
  match acc with
  | [] => [(k, d)]
  | (k₂, v) :: rest => if k₂ = k then (k₂, v + d) :: rest else (k₂, v) :: bump rest k d

/-- Reading a key back out of an association-list accumulator (`0` when
absent, matching `defaultdict(float)`). -/
def lookupD {α : Type} [DecidableEq α] (acc : List (α × ℚ)) (k : α) : ℚ :=
  match acc with
  | [] => 0
  | (k₂, v) :: rest => if k = k₂ then v else lookupD rest k

/-- The aggregation loop of lines 158–164: `by_category_project[key] +=
duration` and `total_seconds += duration`, in one pass over `sessions`. -/
def aggregate (sessions : List Session) : List (Key × ℚ) × ℚ :=
  sessions.foldl (fun acc s => (bump acc.1 (sessionKey s) s.duration, acc.2 + s.duration)) ([], 0)

/-- `sorted(..., key=lambda x: x[1], reverse=True)`: stable sort by value
descending (ties keep insertion order, as `mergeSort` is stable). -/
def sortByDurationDesc {α : Type} (items : List (α × ℚ)) : List (α × ℚ) :=
  items.mergeSort (fun a b => decide (b.2 ≤ a.2))

/-- The tag-bucket key of one session (lines 194–199): its tags sorted
(Python `sorted`, lexicographic on strings) when nonempty, else the empty
tuple. -/
def sessionTagKey (tags : List String) : List String :=
  if tags ≠ [] then tags.mergeSort (fun a b => decide (a ≤ b)) else []

/-- The per-project tag aggregation of lines 190–199: filter the sessions
of this category/project and accumulate durations per tag key. -/
def tagDurations (sessions : List Session) (cat proj : String) : List (List String × ℚ) :=
  (sessions.filter (fun s => s.category = cat ∧ s.project = proj)).foldl
    (fun acc s => bump acc (sessionTagKey s.tags) s.duration) []

/-- The tag lines printed at lines 204–209: a sorted tag bucket renders as
`[tag1, tag2]: H:MM`, and the empty key as `[no tags]: H:MM`. -/
def tagLines (td : List (List String × ℚ)) : List String :=
  td.map (fun p =>
    if p.1 ≠ [] then "      [" ++ String.intercalate ", " p.1 ++ "]: " ++ renderDuration p.2
    else "      [no tags]: " ++ renderDuration p.2)

/-- The breakdown-printing loop of lines 178–185 (without the tag blocks):
`cur` models `current_category`; a header (preceded by a blank line except
the first time) is printed whenever the category differs from `cur`. -/
def breakdownLines : List (Key × ℚ) → Option String → List String
  | [], _ => []
  | ((cat, proj), dur) :: rest, cur =>
      (if cur ≠ some cat then
        (match cur with | none => [] | some _ => [""]) ++ ["  " ++ cat ++ "/"]
      else []) ++
      ["    " ++ proj ++ ": " ++ renderDuration dur] ++
      breakdownLines rest (some cat)

/-- Restatement of the spec's header rule, used to check `breakdownLines`:
pair every entry with the previous entry's category (`none` for the first)
and emit a header exactly when they differ. -/
def renderByHeaderRule (items : List (Key × ℚ)) : List String :=
  ((items.zip ((none : Option String) :: items.map (fun p => some p.1.1))).map
    (fun q =>
      (if q.2 ≠ some q.1.1.1 then
        (if q.2 = none then [] else [""]) ++ ["  " ++ q.1.1.1 ++ "/"]
      else []) ++
      ["    " ++ q.1.1.2 ++ ": " ++ renderDuration q.1.2])).flatten


theorem stepEntry_skip (s e : ℚ) (st : RState) (ev : Event)
    (h : ev.timestamp < s ∨ e ≤ ev.timestamp) : stepEntry s e st ev = st := by
  simp only [stepEntry]
  rw [if_pos h]

theorem stepEntry_start (s e : ℚ) (st : RState) (ev : Event)
    (hw : ¬ (ev.timestamp < s ∨ e ≤ ev.timestamp)) (ha : ev.action = "start") :
    stepEntry s e st ev =
      ⟨st.sessions,
       fun k => if k = keyOf ev then st.pending k ++ [(ev.timestamp, ev.tags)]
                else st.pending k⟩ := by
  simp only [stepEntry]
  rw [if_neg hw, if_pos ha]

theorem stepEntry_stop_nil (s e : ℚ) (st : RState) (ev : Event)
    (hw : ¬ (ev.timestamp < s ∨ e ≤ ev.timestamp)) (ha : ev.action = "stop")
    (hq : st.pending (keyOf ev) = []) : stepEntry s e st ev = st := by
  simp only [stepEntry]
  rw [if_neg hw, if_neg (by rw [ha]; decide), if_pos ha, hq]

theorem stepEntry_stop_cons (s e : ℚ) (st : RState) (ev : Event)
    (hw : ¬ (ev.timestamp < s ∨ e ≤ ev.timestamp)) (ha : ev.action = "stop")
    (p : ℚ × List String) (rest : List (ℚ × List String))
    (hq : st.pending (keyOf ev) = p :: rest) :
    stepEntry s e st ev =
      ⟨st.sessions ++ [mkSession ev p],
       fun k => if k = keyOf ev then rest else st.pending k⟩ := by
  simp only [stepEntry]
  rw [if_neg hw, if_neg (by rw [ha]; decide), if_pos ha, hq]

theorem stepEntry_other (s e : ℚ) (st : RState) (ev : Event)
    (ha : ev.action ≠ "start") (hb : ev.action ≠ "stop") :
    stepEntry s e st ev = st := by
  by_cases hw : ev.timestamp < s ∨ e ≤ ev.timestamp
  · exact stepEntry_skip s e st ev hw
  · simp only [stepEntry]
    rw [if_neg hw, if_neg ha, if_neg hb]

theorem reconstruct_append (s e : ℚ) (l : List Event) (ev : Event) :
    reconstruct s e (l ++ [ev]) = stepEntry s e (reconstruct s e l) ev := by
  simp [reconstruct, List.foldl_append]

theorem inWindowB_true (s e : ℚ) (ev : Event)
    (hw : ¬ (ev.timestamp < s ∨ e ≤ ev.timestamp)) : inWindowB s e ev = true := by
  simp [inWindowB, hw]

theorem inWindowB_false (s e : ℚ) (ev : Event)
    (hw : ev.timestamp < s ∨ e ≤ ev.timestamp) : inWindowB s e ev = false := by
  simp [inWindowB, hw]

theorem startsFor_append (s e : ℚ) (k : Key) (l₁ l₂ : List Event) :
    startsFor s e k (l₁ ++ l₂) = startsFor s e k l₁ ++ startsFor s e k l₂ := by
  simp [startsFor, List.filter_append]

theorem stopsFor_append (s e : ℚ) (k : Key) (l₁ l₂ : List Event) :
    stopsFor s e k (l₁ ++ l₂) = stopsFor s e k l₁ ++ stopsFor s e k l₂ := by
  simp [stopsFor, List.filter_append]

theorem startsFor_singleton_pos (s e : ℚ) (k : Key) (ev : Event)
    (h1 : inWindowB s e ev = true) (h2 : ev.action = "start") (h3 : keyOf ev = k) :
    startsFor s e k [ev] = [ev] := by
  simp [startsFor, h1, h2, h3]

theorem startsFor_singleton_neg (s e : ℚ) (k : Key) (ev : Event)
    (h : inWindowB s e ev = false ∨ ev.action ≠ "start" ∨ keyOf ev ≠ k) :
    startsFor s e k [ev] = [] := by
  rcases h with h | h | h <;> simp [startsFor, h]

theorem stopsFor_singleton_pos (s e : ℚ) (k : Key) (ev : Event)
    (h1 : inWindowB s e ev = true) (h2 : ev.action = "stop") (h3 : keyOf ev = k) :
    stopsFor s e k [ev] = [ev] := by
  simp [stopsFor, h1, h2, h3]

theorem stopsFor_singleton_neg (s e : ℚ) (k : Key) (ev : Event)
    (h : inWindowB s e ev = false ∨ ev.action ≠ "stop" ∨ keyOf ev ≠ k) :
    stopsFor s e k [ev] = [] := by
  rcases h with h | h | h <;> simp [stopsFor, h]

theorem fifo_invariant (s e : ℚ) (k : Key) (es : List Event) :
    ((sessionsFor s e k es).map (fun ss => (ss.start, ss.tags))) ++ (reconstruct s e es).pending k
      = (startsFor s e k es).map (fun ev => (ev.timestamp, ev.tags))
    ∧ ((sessionsFor s e k es).map (fun ss => ss.endTime)).Sublist
        ((stopsFor s e k es).map (fun ev => ev.timestamp)) := by
  induction es using List.reverseRecOn with
  | nil =>
      constructor <;>
        simp [sessionsFor, startsFor, stopsFor, reconstruct, reconstructSessions, initState]
  | append_singleton l ev ih =>
      obtain ⟨ih1, ih2⟩ := ih
      by_cases hw : ev.timestamp < s ∨ e ≤ ev.timestamp
      · have hst : reconstruct s e (l ++ [ev]) = reconstruct s e l := by
          rw [reconstruct_append, stepEntry_skip s e _ ev hw]
        have hwf := inWindowB_false s e ev hw
        refine ⟨?_, ?_⟩
        · rw [sessionsFor, reconstructSessions, hst, startsFor_append,
            startsFor_singleton_neg s e k ev (Or.inl hwf), List.append_nil]
          exact ih1
        · rw [sessionsFor, reconstructSessions, hst, stopsFor_append,
            stopsFor_singleton_neg s e k ev (Or.inl hwf), List.append_nil]
          exact ih2
      · have hwt := inWindowB_true s e ev hw
        by_cases ha : ev.action = "start"
        · have hstop : ev.action ≠ "stop" := by rw [ha]; decide
          have hst : reconstruct s e (l ++ [ev]) =
              ⟨(reconstruct s e l).sessions,
               fun k => if k = keyOf ev then
                   (reconstruct s e l).pending k ++ [(ev.timestamp, ev.tags)]
                 else (reconstruct s e l).pending k⟩ := by
            rw [reconstruct_append, stepEntry_start s e _ ev hw ha]
          by_cases hk : keyOf ev = k
          · subst hk
            refine ⟨?_, ?_⟩
            · rw [sessionsFor, reconstructSessions, hst, startsFor_append,
                startsFor_singleton_pos s e _ ev hwt ha rfl]
              show _ ++ (if keyOf ev = keyOf ev then _ else _) = _
              rw [if_pos rfl, List.map_append, ← List.append_assoc]
              exact congrArg (· ++ [(ev.timestamp, ev.tags)]) ih1
            · rw [sessionsFor, reconstructSessions, hst, stopsFor_append,
                stopsFor_singleton_neg s e _ ev (Or.inr (Or.inl hstop)), List.append_nil]
              exact ih2
          · refine ⟨?_, ?_⟩
            · rw [sessionsFor, reconstructSessions, hst, startsFor_append,
                startsFor_singleton_neg s e k ev (Or.inr (Or.inr hk)), List.append_nil]
              show _ ++ (if k = keyOf ev then _ else _) = _
              rw [if_neg (fun h => hk h.symm)]
              exact ih1
            · rw [sessionsFor, reconstructSessions, hst, stopsFor_append,
                stopsFor_singleton_neg s e k ev (Or.inr (Or.inl hstop)), List.append_nil]
              exact ih2
        · by_cases hb : ev.action = "stop"
          · rcases hq : (reconstruct s e l).pending (keyOf ev) with _ | ⟨p, rest⟩
            · have hst : reconstruct s e (l ++ [ev]) = reconstruct s e l := by
                rw [reconstruct_append, stepEntry_stop_nil s e _ ev hw hb hq]
              refine ⟨?_, ?_⟩
              · rw [sessionsFor, reconstructSessions, hst, startsFor_append,
                  startsFor_singleton_neg s e k ev (Or.inr (Or.inl ha)), List.append_nil]
                exact ih1
              · rw [sessionsFor, reconstructSessions, hst, stopsFor_append]
                rw [List.map_append]
                exact ih2.trans (List.sublist_append_left _ _)
            · have hst : reconstruct s e (l ++ [ev]) =
                  ⟨(reconstruct s e l).sessions ++ [mkSession ev p],
                   fun k => if k = keyOf ev then rest else (reconstruct s e l).pending k⟩ := by
                rw [reconstruct_append, stepEntry_stop_cons s e _ ev hw hb p rest hq]
              by_cases hk : keyOf ev = k
              · subst hk
                have hsk : sessionKey (mkSession ev p) = keyOf ev := rfl
                refine ⟨?_, ?_⟩
                · rw [sessionsFor, reconstructSessions, hst, startsFor_append,
                    startsFor_singleton_neg s e _ ev (Or.inr (Or.inl ha)), List.append_nil]
                  show (List.filter _ (_ ++ [mkSession ev p])).map _ ++
                      (if keyOf ev = keyOf ev then rest else _) = _
                  rw [if_pos rfl, List.filter_append, List.map_append]
                  have hone : (List.filter (fun ss => sessionKey ss = keyOf ev)
                      [mkSession ev p]).map (fun ss => (ss.start, ss.tags))
                      = [(p.1, p.2)] := by
                    simp [sessionKey, mkSession, keyOf]
                  rw [hone, List.append_assoc]
                  have : ([(p.1, p.2)] : List (ℚ × List String)) ++ rest = p :: rest := by
                    simp
                  rw [this, ← hq]
                  exact ih1
                · rw [sessionsFor, reconstructSessions, hst, stopsFor_append,
                    stopsFor_singleton_pos s e _ ev hwt hb rfl]
                  show (List.filter _ (_ ++ [mkSession ev p])).map _ |>.Sublist _
                  rw [List.filter_append, List.map_append, List.map_append]
                  refine List.Sublist.append ih2 ?_
                  simp [sessionKey, mkSession, keyOf]
              · refine ⟨?_, ?_⟩
                · rw [sessionsFor, reconstructSessions, hst, startsFor_append,
                    startsFor_singleton_neg s e k ev (Or.inr (Or.inl ha)), List.append_nil]
                  show (List.filter _ (_ ++ [mkSession ev p])).map _ ++
                      (if k = keyOf ev then rest else _) = _
                  rw [if_neg (fun h => hk h.symm), List.filter_append]
                  have hnone : List.filter (fun ss => sessionKey ss = k) [mkSession ev p]
                      = [] := by
                    simp [mkSession, sessionKey]
                    intro h
                    exact hk h
                  rw [hnone, List.append_nil]
                  exact ih1
                · rw [sessionsFor, reconstructSessions, hst, stopsFor_append,
                    stopsFor_singleton_neg s e k ev (Or.inr (Or.inr hk)), List.append_nil]
                  show (List.filter _ (_ ++ [mkSession ev p])).map _ |>.Sublist _
                  rw [List.filter_append]
                  have hnone : List.filter (fun ss => sessionKey ss = k) [mkSession ev p]
                      = [] := by
                    simp [mkSession, sessionKey]
                    intro h
                    exact hk h
                  rw [hnone, List.append_nil]
                  exact ih2
          · have hst : reconstruct s e (l ++ [ev]) = reconstruct s e l := by
              rw [reconstruct_append, stepEntry_other s e _ ev ha hb]
            refine ⟨?_, ?_⟩
            · rw [sessionsFor, reconstructSessions, hst, startsFor_append,
                startsFor_singleton_neg s e k ev (Or.inr (Or.inl ha)), List.append_nil]
              exact ih1
            · rw [sessionsFor, reconstructSessions, hst, stopsFor_append,
                stopsFor_singleton_neg s e k ev (Or.inr (Or.inl hb)), List.append_nil]
              exact ih2


theorem reconstruct_filter_inWindow (s e : ℚ) (es : List Event) :
    reconstruct s e (es.filter (inWindowB s e)) = reconstruct s e es := by
  induction es using List.reverseRecOn with
  | nil => rfl
  | append_singleton l ev ih =>
      rw [List.filter_append, reconstruct_append]
      by_cases hw : ev.timestamp < s ∨ e ≤ ev.timestamp
      · rw [stepEntry_skip s e _ ev hw]
        simp only [List.filter_cons, List.filter_nil, inWindowB_false s e ev hw,
          Bool.false_eq_true, if_false, List.append_nil]
        exact ih
      · simp only [List.filter_cons, List.filter_nil, inWindowB_true s e ev hw, if_true]
        rw [reconstruct_append, ih]

theorem reconstruct_filter_actions (s e : ℚ) (es : List Event) :
    reconstruct s e (es.filter (fun ev => ev.action = "start" ∨ ev.action = "stop"))
      = reconstruct s e es := by
  induction es using List.reverseRecOn with
  | nil => rfl
  | append_singleton l ev ih =>
      rw [List.filter_append, reconstruct_append]
      by_cases ha : ev.action = "start" ∨ ev.action = "stop"
      · have hd : decide (ev.action = "start" ∨ ev.action = "stop") = true :=
          decide_eq_true ha
        simp only [List.filter_cons, List.filter_nil, hd, if_true]
        rw [reconstruct_append, ih]
      · have hd : decide (ev.action = "start" ∨ ev.action = "stop") = false :=
          decide_eq_false ha
        push_neg at ha
        rw [stepEntry_other s e _ ev ha.1 ha.2]
        simp only [List.filter_cons, List.filter_nil, hd, Bool.false_eq_true, if_false,
          List.append_nil]
        exact ih

theorem stepEntry_sessions_of_not_stop (s e : ℚ) (st : RState) (ev : Event)
    (hb : ev.action ≠ "stop") : (stepEntry s e st ev).sessions = st.sessions := by
  by_cases hw : ev.timestamp < s ∨ e ≤ ev.timestamp
  · rw [stepEntry_skip s e st ev hw]
  · by_cases ha : ev.action = "start"
    · rw [stepEntry_start s e st ev hw ha]
    · rw [stepEntry_other s e st ev ha hb]

theorem sessions_nil_of_no_stop (s e : ℚ) (es : List Event)
    (h : ∀ ev ∈ es, ev.action ≠ "stop") : (reconstruct s e es).sessions = [] := by
  induction es using List.reverseRecOn with
  | nil => rfl
  | append_singleton l ev ih =>
      rw [reconstruct_append, stepEntry_sessions_of_not_stop s e _ ev
        (h ev (List.mem_append_right l (List.mem_singleton_self ev)))]
      exact ih (fun x hx => h x (List.mem_append_left _ hx))

theorem stepEntry_sessions_length (s e : ℚ) (st : RState) (ev : Event) :
    (stepEntry s e st ev).sessions.length ≤ st.sessions.length +
      (if ev.action = "stop" then 1 else 0) := by
  by_cases hb : ev.action = "stop"
  · rw [if_pos hb]
    by_cases hw : ev.timestamp < s ∨ e ≤ ev.timestamp
    · rw [stepEntry_skip s e st ev hw]; omega
    · rcases hq : st.pending (keyOf ev) with _ | ⟨p, rest⟩
      · rw [stepEntry_stop_nil s e st ev hw hb hq]; omega
      · rw [stepEntry_stop_cons s e st ev hw hb p rest hq]
        simp
  · rw [if_neg hb, stepEntry_sessions_of_not_stop s e st ev hb, add_zero]

theorem sessions_length_le_stops (s e : ℚ) (es : List Event) :
    (reconstruct s e es).sessions.length
      ≤ (es.filter (fun ev => ev.action = "stop")).length := by
  induction es using List.reverseRecOn with
  | nil => simp [reconstruct, initState]
  | append_singleton l ev ih =>
      rw [reconstruct_append, List.filter_append]
      refine le_trans (stepEntry_sessions_length s e _ ev) ?_
      rw [List.length_append]
      by_cases hb : ev.action = "stop" <;> simp [hb] <;> omega

theorem valSum_bump {α : Type} [DecidableEq α] (acc : List (α × ℚ)) (k : α) (d : ℚ) :
    ((bump acc k d).map (fun p => p.2)).sum = (acc.map (fun p => p.2)).sum + d := by
  induction acc with
  | nil => simp [bump]
  | cons hd tl ih =>
      obtain ⟨k₂, v⟩ := hd
      simp only [bump]
      split
      · simp [add_assoc, add_comm d]
      · simp only [List.map_cons, List.sum_cons, ih]
        ring

theorem aggregate_total_eq_sum (sessions : List Session) :
    (aggregate sessions).2 = ((aggregate sessions).1.map (fun p => p.2)).sum := by
  suffices h : ∀ acc : List (Key × ℚ) × ℚ, acc.2 = (acc.1.map (fun p => p.2)).sum →
      (sessions.foldl
        (fun acc s => (bump acc.1 (sessionKey s) s.duration, acc.2 + s.duration)) acc).2
        = ((sessions.foldl
            (fun acc s => (bump acc.1 (sessionKey s) s.duration, acc.2 + s.duration)) acc).1.map
              (fun p => p.2)).sum by
    exact h ([], 0) (by simp)
  induction sessions with
  | nil => exact fun acc h => h
  | cons s tl ih =>
      intro acc h
      exact ih _ (by simp only [valSum_bump, h])

theorem lookupD_bump {α : Type} [DecidableEq α] (acc : List (α × ℚ)) (k k₁ : α) (d : ℚ) :
    lookupD (bump acc k₁ d) k = lookupD acc k + (if k = k₁ then d else 0) := by
  induction acc with
  | nil =>
      by_cases hk : k = k₁ <;> simp [bump, lookupD, hk]
  | cons hd tl ih =>
      obtain ⟨k₂, v⟩ := hd
      by_cases h2 : k₂ = k₁
      · subst h2
        by_cases hk : k = k₂ <;> simp [bump, lookupD, hk]
      · by_cases hk : k = k₂
        · subst hk
          simp [bump, lookupD, h2]
        · simp [bump, lookupD, h2, hk, ih]

theorem lookupD_tag_fold (k : List String) (l : List Session) :
    ∀ acc : List (List String × ℚ),
      lookupD (l.foldl (fun acc s => bump acc (sessionTagKey s.tags) s.duration) acc) k
        = lookupD acc k
          + ((l.filter (fun s => sessionTagKey s.tags = k)).map (fun s => s.duration)).sum := by
  induction l with
  | nil => intro acc; simp
  | cons s tl ih =>
      intro acc
      simp only [List.foldl_cons, ih, lookupD_bump, List.filter_cons]
      by_cases hk : sessionTagKey s.tags = k
      · have hd : decide (sessionTagKey s.tags = k) = true := decide_eq_true hk
        rw [hd, if_pos hk.symm, if_pos rfl]
        simp only [List.map_cons, List.sum_cons]
        ring
      · have hd : decide (sessionTagKey s.tags = k) = false := decide_eq_false hk
        rw [hd, if_neg (fun h => hk h.symm), if_neg Bool.false_ne_true, add_zero]

theorem lookupD_tagDurations (sessions : List Session) (cat proj : String) (k : List String) :
    lookupD (tagDurations sessions cat proj) k =
      (((sessions.filter (fun s => s.category = cat ∧ s.project = proj)).filter
          (fun s => sessionTagKey s.tags = k)).map (fun s => s.duration)).sum := by
  rw [tagDurations, lookupD_tag_fold]
  simp [lookupD]


theorem mergeSortStr_sorted (l : List String) :
    List.Sorted (· ≤ ·) (l.mergeSort (fun a b => decide (a ≤ b))) := by
  have h := @List.sorted_mergeSort String (fun a b : String => decide (a ≤ b))
    (fun a b c hab hbc => by
      simp only [decide_eq_true_eq] at hab hbc ⊢
      exact le_trans hab hbc)
    (fun a b => by
      simpa using le_total a b) l
  exact h.imp (fun hab => by simpa using hab)

theorem mergeSortStr_perm (l : List String) :
    (l.mergeSort (fun a b => decide (a ≤ b))).Perm l :=
  List.mergeSort_perm l _

theorem mergeSortStr_of_perm (l₁ l₂ : List String) (h : l₁.Perm l₂) :
    l₁.mergeSort (fun a b => decide (a ≤ b)) = l₂.mergeSort (fun a b => decide (a ≤ b)) :=
  @List.eq_of_perm_of_sorted String (· ≤ ·) _ _ _
    ((mergeSortStr_perm l₁).trans (h.trans (mergeSortStr_perm l₂).symm))
    (mergeSortStr_sorted l₁) (mergeSortStr_sorted l₂)

theorem sessionTagKey_of_perm (ts₁ ts₂ : List String) (h : ts₁.Perm ts₂) :
    sessionTagKey ts₁ = sessionTagKey ts₂ := by
  by_cases h1 : ts₁ = []
  · subst h1
    rw [List.nil_perm.mp h]
  · have h2 : ts₂ ≠ [] := by
      intro hc
      exact h1 (List.perm_nil.mp (hc ▸ h))
    rw [sessionTagKey, sessionTagKey, if_pos h1, if_pos h2]
    exact mergeSortStr_of_perm ts₁ ts₂ h

theorem sessionTagKey_perm (ts : List String) : (sessionTagKey ts).Perm ts := by
  by_cases h : ts = []
  · subst h; rfl
  · rw [sessionTagKey, if_pos h]
    exact mergeSortStr_perm ts

theorem sessionTagKey_sorted (ts : List String) :
    List.Sorted (· ≤ ·) (sessionTagKey ts) := by
  by_cases h : ts = []
  · subst h; simp [sessionTagKey]
  · rw [sessionTagKey, if_pos h]
    exact mergeSortStr_sorted ts

theorem sessionTagKey_eq_nil_iff (ts : List String) :
    sessionTagKey ts = [] ↔ ts = [] := by
  constructor
  · intro h
    exact List.perm_nil.mp (h ▸ (sessionTagKey_perm ts).symm)
  · intro h
    subst h; rfl

theorem parse_log_line_short (fromiso : String → Option ℚ) (line : String)
    (h : (tokenize line).length < 4) : parse_log_line fromiso line = none := by
  simp [parse_log_line, h]

theorem parse_log_line_badTimestamp (fromiso : String → Option ℚ) (line : String)
    (h : fromiso ((tokenize line).getD 0 "") = none) :
    parse_log_line fromiso line = none := by
  by_cases hl : (tokenize line).length < 4
  · simp [parse_log_line, hl]
  · simp only [parse_log_line, if_neg hl]
    rw [h]

theorem parse_log_line_action (fromiso : String → Option ℚ) (line : String) (ev : Event)
    (h : parse_log_line fromiso line = some ev) :
    ev.action = (tokenize line).getD 1 "" := by
  by_cases hl : (tokenize line).length < 4
  · simp [parse_log_line, hl] at h
  · rw [parse_log_line] at h
    simp only [if_neg hl] at h
    rcases hf : fromiso ((tokenize line).getD 0 "") with _ | t
    · rw [hf] at h; exact absurd h (by simp)
    · rw [hf] at h
      cases Option.some.inj h
      rfl

theorem pyInt_of_nonneg (d : ℚ) (h : 0 ≤ d) : pyInt d = Int.floor d := by
  rw [pyInt, Rat.floor_def]
  exact Int.tdiv_eq_ediv (Rat.num_nonneg.mpr h) (Int.natCast_nonneg _)

theorem pyInt_of_neg (d : ℚ) (h : ¬ 0 ≤ d) : pyInt d = Int.ceil d := by
  have h1 : pyInt d = -(Int.tdiv (-d).num (-d).den) := by
    rw [pyInt, Rat.neg_den, Rat.neg_num, Int.neg_tdiv, neg_neg]
  rw [h1, Int.tdiv_eq_ediv (Rat.num_nonneg.mpr (by push_neg at h; exact neg_nonneg.mpr h.le))
    (Int.natCast_nonneg _), ← Rat.floor_def, Int.floor_neg, neg_neg]

theorem pyInt_trunc (d : ℚ) : pyInt d = (if 0 ≤ d then Int.floor d else Int.ceil d) := by
  by_cases h : 0 ≤ d
  · rw [if_pos h]; exact pyInt_of_nonneg d h
  · rw [if_neg h]; exact pyInt_of_neg d h

theorem breakdownLines_headerRule (items : List (Key × ℚ)) : ∀ cur : Option String,
    breakdownLines items cur =
      ((items.zip (cur :: items.map (fun p => some p.1.1))).map
        (fun q =>
          (if q.2 ≠ some q.1.1.1 then
            (if q.2 = none then [] else [""]) ++ ["  " ++ q.1.1.1 ++ "/"]
          else []) ++
          ["    " ++ q.1.1.2 ++ ": " ++ renderDuration q.1.2])).flatten := by
  induction items with
  | nil => intro cur; rfl
  | cons x rest ih =>
      intro cur
      obtain ⟨⟨cat, proj⟩, dur⟩ := x
      simp only [List.map_cons, List.zip_cons_cons, List.flatten_cons, breakdownLines]
      rw [ih (some cat)]
      cases cur with
      | none => simp
      | some c =>
          by_cases hc : c = cat
          · subst hc
            simp
          · simp [hc, Ne.symm hc]


theorem mergeSortStr_eq (l t : List String) (hp : l.Perm t)
    (hs : List.Sorted (· ≤ ·) t) :
    l.mergeSort (fun a b => decide (a ≤ b)) = t :=
  List.eq_of_perm_of_sorted ((mergeSortStr_perm l).trans hp) (mergeSortStr_sorted l) hs

/-- C1: For every input event sequence and every (category, project) key, stop
events are matched to pending start events in FIFO order. The characterisation:
per key, the starts consumed by the emitted sessions (in emission order)
followed by the still-pending queue are exactly the in-window starts in file
order, and the session end times are a subsequence of the in-window stops in
file order — so the j-th matched stop closes the j-th (i.e. oldest unmatched)
start, never a later one: with S1 before S2 and T1 before T2, S1 pairs with T1
and S2 with T2, never S2 with T1. The closed conjunct checks the
two-starts-then-two-stops example: FIFO pairing yields (0,600) and (600,1200),
not the crossed pairing. -/
theorem c1_fifo_pairing (s e : ℚ) (k : Key) (es : List Event) :
    (((sessionsFor s e k es).map (fun ss => (ss.start, ss.tags)))
        ++ (reconstruct s e es).pending k
      = (startsFor s e k es).map (fun ev => (ev.timestamp, ev.tags)))
    ∧ ((sessionsFor s e k es).map (fun ss => ss.endTime)).Sublist
        ((stopsFor s e k es).map (fun ev => ev.timestamp))
    ∧ (reconstructSessions 0 86400
        [⟨0, "start", "work", "p", []⟩, ⟨600, "start", "work", "p", []⟩,
         ⟨600, "stop", "work", "p", []⟩, ⟨1200, "stop", "work", "p", []⟩]).map
          (fun ss => (ss.start, ss.endTime, ss.duration))
        = [(0, 600, 600), (600, 1200, 600)] :=
  ⟨(fifo_invariant s e k es).1, (fifo_invariant s e k es).2, by
    simp +decide only [reconstructSessions, reconstruct, List.foldl, stepEntry, keyOf,
      mkSession, initState]
    norm_num⟩

/-- C2: Window filtering is half-open. Skipping all out-of-window events leaves
the whole reconstruction state unchanged (so such events contribute to no
session), an event is skipped exactly when `timestamp < start` or
`end ≤ timestamp`, an event exactly at `start` (with a nonempty window) is in
the window — a start there is pushed onto its pending queue — and an event
exactly at `end` is not in the window. -/
theorem c2_window_half_open (s e : ℚ) (es : List Event) (ev : Event) (st : RState) :
    reconstruct s e (es.filter (inWindowB s e)) = reconstruct s e es
    ∧ (ev.timestamp < s ∨ e ≤ ev.timestamp → stepEntry s e st ev = st)
    ∧ (ev.timestamp = s → s < e → inWindowB s e ev = true)
    ∧ (ev.timestamp = e → inWindowB s e ev = false)
    ∧ (ev.timestamp = s → s < e → ev.action = "start" →
        (stepEntry s e st ev).pending (keyOf ev)
          = st.pending (keyOf ev) ++ [(ev.timestamp, ev.tags)]) := by
  refine ⟨reconstruct_filter_inWindow s e es, stepEntry_skip s e st ev, ?_, ?_, ?_⟩
  · intro ht hlt
    apply decide_eq_true
    rw [ht]
    push_neg
    exact ⟨le_rfl, hlt⟩
  · intro ht
    exact decide_eq_false (not_not_intro (Or.inr (ht ▸ le_rfl)))
  · intro ht hlt ha
    have hw : ¬ (ev.timestamp < s ∨ e ≤ ev.timestamp) := by
      rw [ht]
      push_neg
      exact ⟨le_rfl, hlt⟩
    rw [stepEntry_start s e st ev hw ha]
    simp

theorem c2_window_half_open_witness :
    inWindowB 0 10 ⟨0, "start", "c", "p", []⟩ = true
    ∧ inWindowB 0 10 ⟨10, "start", "c", "p", []⟩ = false
    ∧ stepEntry 0 10 initState ⟨10, "start", "c", "p", []⟩ = initState
    ∧ (stepEntry 0 10 initState ⟨0, "start", "c", "p", []⟩).pending
        (keyOf ⟨0, "start", "c", "p", []⟩)
      = initState.pending (keyOf ⟨0, "start", "c", "p", []⟩) ++ [(0, [])] :=
  ⟨(c2_window_half_open 0 10 [] ⟨0, "start", "c", "p", []⟩ initState).2.2.1 rfl
      (by norm_num),
   (c2_window_half_open 0 10 [] ⟨10, "start", "c", "p", []⟩ initState).2.2.2.1 rfl,
   (c2_window_half_open 0 10 [] ⟨10, "start", "c", "p", []⟩ initState).2.1
      (Or.inr (by norm_num)),
   (c2_window_half_open 0 10 [] ⟨0, "start", "c", "p", []⟩ initState).2.2.2.2 rfl
      (by norm_num) rfl⟩

/-- C3: Unmatched events produce no sessions and no error: if no stop event
occurs, no session is emitted (pending starts are simply dropped — only
`sessions` leaves the loop); a stop whose key has an empty pending queue
leaves the state unchanged; and in general the number of emitted sessions is
at most the number of stop events. -/
theorem c3_unmatched_silent (s e : ℚ) (es : List Event) (ev : Event) (st : RState) :
    ((∀ x ∈ es, x.action ≠ "stop") → (reconstruct s e es).sessions = [])
    ∧ (ev.action = "stop" → st.pending (keyOf ev) = [] → stepEntry s e st ev = st)
    ∧ (reconstructSessions s e es).length
        ≤ (es.filter (fun x => x.action = "stop")).length := by
  refine ⟨sessions_nil_of_no_stop s e es, ?_, sessions_length_le_stops s e es⟩
  intro hb hq
  by_cases hw : ev.timestamp < s ∨ e ≤ ev.timestamp
  · exact stepEntry_skip s e st ev hw
  · exact stepEntry_stop_nil s e st ev hw hb hq

theorem c3_unmatched_silent_witness :
    (reconstruct 0 86400 [⟨0, "start", "c", "p", []⟩]).sessions = []
    ∧ stepEntry 0 86400 initState ⟨5, "stop", "c", "p", []⟩ = initState :=
  ⟨(c3_unmatched_silent 0 86400 [⟨0, "start", "c", "p", []⟩]
      ⟨5, "stop", "c", "p", []⟩ initState).1 (by decide),
   (c3_unmatched_silent 0 86400 [⟨0, "start", "c", "p", []⟩]
      ⟨5, "stop", "c", "p", []⟩ initState).2.1 rfl rfl⟩

/-- C4: For every sequence of sessions, the grand total accumulated by the
aggregation loop equals the sum over all (category, project) buckets of that
bucket's total. -/
theorem c4_total_eq_bucket_sum (sessions : List Session) :
    (aggregate sessions).2 = ((aggregate sessions).1.map (fun p => p.2)).sum :=
  aggregate_total_eq_sum sessions

/-- C5: The line parser is total and deterministic: it returns an `Option`
(never raises), a line with fewer than 4 whitespace-separated tokens yields
`none`, and a line whose first token the timestamp parser rejects yields
`none`. -/
theorem c5_parser_total (fromiso : String → Option ℚ) (line : String) :
    ((tokenize line).length < 4 → parse_log_line fromiso line = none)
    ∧ (fromiso ((tokenize line).getD 0 "") = none → parse_log_line fromiso line = none)
    ∧ (parse_log_line fromiso line = none
        ∨ ∃ ev : Event, parse_log_line fromiso line = some ev) :=
  ⟨parse_log_line_short fromiso line, parse_log_line_badTimestamp fromiso line, by
    cases h : parse_log_line fromiso line with
    | none => exact Or.inl rfl
    | some ev => exact Or.inr ⟨ev, rfl⟩⟩

theorem c5_parser_total_witness :
    parse_log_line (fun _ => some 0) "2024-01-01T14:00:00Z start" = none
    ∧ parse_log_line (fun _ => none) "2024-01-01T14:00:00Z start work proj1" = none :=
  ⟨(c5_parser_total (fun _ => some 0) "2024-01-01T14:00:00Z start").1 (by decide),
   (c5_parser_total (fun _ => none) "2024-01-01T14:00:00Z start work proj1").2.1 rfl⟩


/-- C6 (counterexample): the claim renders every duration by flooring the
fractional seconds. The code converts with Python `int()`, which truncates
toward zero: at duration -1/2 s the code renders `0:00`, while flooring to -1
would render `-1:59`. -/
theorem c6_floor_truncation_cex :
    renderDuration (-(1 : ℚ)/2) = "0:00"
    ∧ Int.floor (-(1 : ℚ)/2) = -1
    ∧ format_duration (-1) = "-1:59"
    ∧ renderDuration (-(1 : ℚ)/2) ≠ format_duration (Int.floor (-(1 : ℚ)/2)) := by
  have h2 : Int.floor (-(1 : ℚ)/2) = -1 := by norm_num
  have h1 : renderDuration (-(1 : ℚ)/2) = "0:00" := by
    rw [renderDuration, pyInt_trunc, if_neg (by norm_num),
      show Int.ceil (-(1 : ℚ)/2) = 0 by norm_num]
    decide
  refine ⟨h1, h2, by decide, ?_⟩
  rw [h1, h2]
  decide

/-- C6 (amended): the rendered duration string is the integer hours (no
leading zero, no cap — 360000 s renders as `100:00`) joined by `:` to the
minutes zero-padded to 2 digits, with fractional seconds truncated toward
zero (which is flooring for non-negative durations), never rounded; in
particular 5400 s renders as `1:30`. -/
theorem c6_duration_format (d : ℚ) (s m : ℤ) :
    (0 ≤ d → pyInt d = Int.floor d)
    ∧ renderDuration 5400 = "1:30"
    ∧ format_duration 360000 = "100:00"
    ∧ format_duration s =
        toString (s / 3600) ++ ":" ++
          (if s % 3600 / 60 < 10 then "0" ++ toString (s % 3600 / 60)
           else toString (s % 3600 / 60))
    ∧ (0 ≤ m → m < 60 → (pad2 m).length = 2) := by
  refine ⟨pyInt_of_nonneg d, by decide, by decide, ?_, ?_⟩
  · rw [format_duration, pad2]
    have hm : 0 ≤ s % 3600 / 60 := by omega
    by_cases h10 : s % 3600 / 60 < 10
    · rw [if_pos ⟨hm, h10⟩, if_pos h10]
    · rw [if_neg (fun h => h10 h.2), if_neg h10]
  · intro h1 h2
    interval_cases m <;> decide

theorem c6_duration_format_witness :
    pyInt (5400 : ℚ) = Int.floor (5400 : ℚ)
    ∧ (pad2 5).length = 2 :=
  ⟨(c6_duration_format 5400 0 5).1 (by norm_num),
   (c6_duration_format 5400 0 5).2.2.2.2 (by norm_num) (by norm_num)⟩

/-- C7: A parsed line keeps its action token verbatim even when it is neither
`start` nor `stop`, and the reconstruction loop yields exactly the same state
(sessions and pending queues) when all such events are removed from the
input: they never push onto or pop from any pending queue. -/
theorem c7_unknown_action_ignored (fromiso : String → Option ℚ) (line : String)
    (s e : ℚ) (es : List Event) :
    (∀ ev : Event, parse_log_line fromiso line = some ev →
        ev.action = (tokenize line).getD 1 "")
    ∧ reconstruct s e (es.filter (fun ev => ev.action = "start" ∨ ev.action = "stop"))
        = reconstruct s e es :=
  ⟨fun ev h => parse_log_line_action fromiso line ev h, reconstruct_filter_actions s e es⟩

theorem c7_unknown_action_ignored_witness :
    (⟨0, "pause", "c", "p", []⟩ : Event).action = (tokenize "t pause c p").getD 1 ""
    ∧ (reconstruct 0 10 (List.filter (fun ev => ev.action = "start" ∨ ev.action = "stop")
        [(⟨1, "pause", "c", "p", []⟩ : Event)])).sessions
      = (reconstruct 0 10 [(⟨1, "pause", "c", "p", []⟩ : Event)]).sessions :=
  ⟨(c7_unknown_action_ignored (fun _ => some 0) "t pause c p" 0 10 []).1
      ⟨0, "pause", "c", "p", []⟩ (by decide),
   congrArg RState.sessions
     (c7_unknown_action_ignored (fun _ => some 0) "t pause c p" 0 10
       [⟨1, "pause", "c", "p", []⟩]).2⟩

/-- C8: In the tag breakdown, a session's bucket key is its tag sequence
sorted lexicographically with duplicates retained (a permutation of the tag
list, sorted; permuted tag lists collapse to the same key; `[urgent,
client-x]` becomes `[client-x, urgent]`), the empty tag list keys a
distinguished bucket (the key is empty iff the tag list is), each bucket
accumulates exactly the durations of the sessions with that key, and the
spec's example renders as `[client-x, urgent]: 1:30` beside a separate
`[no tags]` bucket. -/
theorem c8_tag_buckets (ts₁ ts₂ : List String) (sessions : List Session)
    (cat proj : String) (k : List String) :
    (ts₁.Perm ts₂ → sessionTagKey ts₁ = sessionTagKey ts₂)
    ∧ (sessionTagKey ts₁).Perm ts₁
    ∧ List.Sorted (· ≤ ·) (sessionTagKey ts₁)
    ∧ (sessionTagKey ts₁ = [] ↔ ts₁ = [])
    ∧ sessionTagKey ["urgent", "client-x"] = ["client-x", "urgent"]
    ∧ lookupD (tagDurations sessions cat proj) k =
        (((sessions.filter (fun s => s.category = cat ∧ s.project = proj)).filter
            (fun s => sessionTagKey s.tags = k)).map (fun s => s.duration)).sum
    ∧ tagLines (sortByDurationDesc (tagDurations
        [⟨"work", "p", 0, 5400, 5400, ["urgent", "client-x"]⟩,
         ⟨"work", "p", 6000, 6060, 60, []⟩] "work" "p"))
        = ["      [client-x, urgent]: 1:30", "      [no tags]: 0:01"] := by
  have hks : sessionTagKey ["urgent", "client-x"] = ["client-x", "urgent"] := by
    rw [sessionTagKey, if_pos (by decide)]
    exact mergeSortStr_eq _ _ (by decide)
      (by simp [List.sorted_cons, String.le_iff_toList_le]; decide)
  refine ⟨sessionTagKey_of_perm ts₁ ts₂, sessionTagKey_perm ts₁, sessionTagKey_sorted ts₁,
    sessionTagKey_eq_nil_iff ts₁, hks, lookupD_tagDurations sessions cat proj k, ?_⟩
  have hke : sessionTagKey ([] : List String) = [] := rfl
  have htd : tagDurations
      [⟨"work", "p", 0, 5400, 5400, ["urgent", "client-x"]⟩,
       ⟨"work", "p", 6000, 6060, 60, []⟩] "work" "p"
      = [(["client-x", "urgent"], 5400), ([], 60)] := by
    simp +decide only [tagDurations, List.filter, List.foldl, bump, hks, hke]
  rw [htd]
  have hsort : sortByDurationDesc [(["client-x", "urgent"], (5400 : ℚ)), ([], 60)]
      = [(["client-x", "urgent"], (5400 : ℚ)), ([], 60)] := by
    apply List.mergeSort_of_sorted
    decide
  rw [hsort]
  decide

theorem c8_tag_buckets_witness :
    sessionTagKey ["urgent", "client-x"] = sessionTagKey ["client-x", "urgent"] :=
  (c8_tag_buckets ["urgent", "client-x"] ["client-x", "urgent"] [] "w" "p" []).1
    (by decide)

/-- C9: In the rendered breakdown the category header is emitted exactly when
the current entry's category differs from the previous entry's in sorted
order (and for the first entry): the printing loop equals the rule that pairs
each entry with the previous entry's category and emits a header (preceded by
a blank line except at the very first entry) exactly on a change. On
duration-desc-sorted buckets interleaving category `a` around `b` (the sort
leaves the example, already descending, unchanged), the header `  a/` is
therefore printed twice. -/
theorem c9_category_headers (items : List (Key × ℚ)) :
    breakdownLines items none = renderByHeaderRule items
    ∧ sortByDurationDesc [(("a", "p1"), (7200 : ℚ)), (("b", "q"), 3600), (("a", "p2"), 1800)]
        = [(("a", "p1"), (7200 : ℚ)), (("b", "q"), 3600), (("a", "p2"), 1800)]
    ∧ breakdownLines [(("a", "p1"), (7200 : ℚ)), (("b", "q"), 3600), (("a", "p2"), 1800)] none
        = ["  a/", "    p1: 2:00", "", "  b/", "    q: 1:00", "", "  a/", "    p2: 0:30"] := by
  refine ⟨?_, ?_, by decide⟩
  · rw [renderByHeaderRule]
    exact breakdownLines_headerRule items none
  · apply List.mergeSort_of_sorted
    decide

/-- C10: For a negative integer duration `s` the formatter renders hours as
the floor division `s // 3600` (Euclidean and floor division agree on the
positive divisor 3600), which is negative, and minutes as `(s % 3600) // 60`,
always in `0..59`; -90 s renders as `-1:58`, not `-0:01`; and the conversion
from the (possibly fractional) session duration to an integer before
formatting truncates toward zero — `int(-3/2)` is -1, not the floor -2. -/
theorem c10_negative_rendering (s : ℤ) (d : ℚ) :
    (s < 0 → s / 3600 < 0)
    ∧ s / 3600 = Int.fdiv s 3600
    ∧ (0 ≤ s % 3600 / 60 ∧ s % 3600 / 60 < 60)
    ∧ format_duration (-90) = "-1:58"
    ∧ format_duration (-90) ≠ "-0:01"
    ∧ pyInt d = (if 0 ≤ d then Int.floor d else Int.ceil d)
    ∧ pyInt (-(3 : ℚ)/2) = -1
    ∧ Int.floor (-(3 : ℚ)/2) = -2 := by
  refine ⟨fun h => by omega, (Int.fdiv_eq_ediv s (by norm_num)).symm, by omega,
    by decide, by decide, pyInt_trunc d, ?_, by norm_num⟩
  rw [pyInt_trunc, if_neg (by norm_num), Int.ceil_eq_iff]
  norm_num

theorem c10_negative_rendering_witness :
    ((-90 : ℤ) / 3600 < 0) ∧ pyInt (-(3 : ℚ)/2) = -1 :=
  ⟨(c10_negative_rendering (-90) (-(3 : ℚ)/2)).1 (by norm_num),
   (c10_negative_rendering (-90) (-(3 : ℚ)/2)).2.2.2.2.2.2.1⟩

end Timetrack
